import Mathlib

/-!
Verification of the tidy-data notebook transformations
(`02_SeabornIntro.ipynb` and the advanced tidy-data notebook).

The notebooks perform a short linear sequence of dataframe operations:
`pd.melt`, `dropna`, `str.extract`, `astype`, `drop_duplicates` /
`reset_index` / `pd.merge` (normalization into `songs` / `ranks`),
`pivot_table`, `to_json` with the records orientation, and the baby-names file-name
regex loop.  Each operation is embedded below as an executable Lean
function on in-memory tables, and the stated properties of the pipeline
are proved about those embeddings.
-/

set_option maxHeartbeats 1000000

/-- A wide-format table: an abstract identifier part `κ` per row (the
melt `id_vars` combination), a list of value-column names, and per row
the list of cells aligned with `valueCols`.  This models the dataframe
shape consumed by `pd.melt(frame, id_vars, var_name, value_name)`. -/
structure WTable (κ α : Type) where
  valueCols : List String
  rows : List (κ × List α)

/-- Column-major melt worker: `pd.melt` stacks the value columns one
after the other, each paired with the (repeated) identifier columns.
The first value column is peeled off every row, then the process
recurses on the remaining columns. -/
def meltGo {κ α : Type} [Inhabited α] :
    List String → List (κ × List α) → List (κ × String × α)
  | [], _ => []
  | c :: cs, rows =>
    (rows.map (fun r => (r.1, c, r.2.headD default))) ++
      meltGo cs (rows.map (fun r => (r.1, r.2.tail)))

/-- Model of `pd.melt(frame, id_vars, var_name, value_name)`: the identifier
combination of every row is repeated once per value column, with the
former column name in the `var_name` column and the former cell value
in the `value_name` column. -/
def melt {κ α : Type} [Inhabited α] (t : WTable κ α) : List (κ × String × α) :=
  meltGo t.valueCols t.rows

/-- The description of melt as worded by the specification: one
output row per (identifier-combination, former-column-name,
former-cell-value) triple, i.e. for each value column (with its
position) and each input row, one output row carrying the identifiers
of that row, the column name, and the cell at that column. -/
def meltSpec {κ α : Type} [Inhabited α] (t : WTable κ α) : List (κ × String × α) :=
  t.valueCols.enum.flatMap fun jc =>
    t.rows.map fun r => (r.1, jc.2, r.2.getD jc.1 default)

theorem getD_eq_headD_drop {α : Type} [Inhabited α] (l : List α) (n : Nat) :
    l.getD n default = (l.drop n).headD default := by
  induction l generalizing n with
  | nil => cases n <;> rfl
  | cons a l ih =>
    cases n with
    | zero => rfl
    | succ n => simp [List.getD, ih n]

theorem meltGo_length {κ α : Type} [Inhabited α]
    (cs : List String) (rows : List (κ × List α)) :
    (meltGo cs rows).length = cs.length * rows.length := by
  induction cs generalizing rows with
  | nil => simp [meltGo]
  | cons c cs ih => simp [meltGo, ih, Nat.succ_mul, Nat.add_comm]

theorem meltGo_eq_spec_from {κ α : Type} [Inhabited α]
    (cs : List String) (rows : List (κ × List α)) (n : Nat) :
    meltGo cs (rows.map fun r => (r.1, r.2.drop n)) =
      (cs.enumFrom n).flatMap
        (fun jc => rows.map fun r => (r.1, jc.2, r.2.getD jc.1 default)) := by
  induction cs generalizing n with
  | nil => simp [meltGo]
  | cons c cs ih =>
    rw [meltGo, List.enumFrom_cons, List.flatMap_cons]
    congr 1
    · rw [List.map_map]
      apply List.map_congr_left
      intro r _
      simp [getD_eq_headD_drop]
    · rw [List.map_map]
      have hrw :
          ((fun r : κ × List α => (r.1, r.2.tail)) ∘ fun r : κ × List α => (r.1, r.2.drop n)) =
            fun r : κ × List α => (r.1, r.2.drop (n + 1)) := by
        funext r
        simp [List.tail_drop]
      rw [hrw, ih (n + 1)]

theorem melt_eq_meltSpec {κ α : Type} [Inhabited α] (t : WTable κ α) :
    melt t = meltSpec t := by
  have h := meltGo_eq_spec_from t.valueCols t.rows 0
  simpa [melt, meltSpec, List.enum] using h

/-- C1: For every input table and identifier column set, the melt step
produces exactly one output row per (identifier-combination,
former-column-name, former-cell-value) triple: each input row yields
one output row for each non-identifier column, carrying its identifier
values unchanged, the former column name in the variable column and
the former cell value in the value column (value columns stacked in
column order, as `pd.melt` does). -/
theorem melt_produces_one_row_per_row_and_column {κ α : Type} [Inhabited α]
    (t : WTable κ α) :
    melt t = meltSpec t ∧
      (melt t).length = t.valueCols.length * t.rows.length := by
  refine ⟨melt_eq_meltSpec t, ?_⟩
  exact meltGo_length t.valueCols t.rows

/-! ## dropna (billboard / tuberculosis / weather cleaning cells) -/

/-- A row with possibly-missing cells, as a list of `Option` values:
`none` is a pandas `NaN`. -/
def rowHasNA {α : Type} (r : List (Option α)) : Bool :=
  r.any fun c => c.isNone

/-- Model of `df.dropna()`: keep only the rows in which every field is present. -/
def dropna {α : Type} (rows : List (List (Option α))) : List (List (Option α)) :=
  rows.filter fun r => !rowHasNA r

theorem count_dropna_eq {α : Type} [DecidableEq α]
    (rows : List (List (Option α))) (r : List (Option α)) :
    (dropna rows).count r = if rowHasNA r then 0 else rows.count r := by
  by_cases h : rowHasNA r
  · rw [if_pos h]
    rw [List.count_eq_zero]
    intro hmem
    rw [dropna, List.mem_filter] at hmem
    simp [h] at hmem
  · rw [if_neg h]
    rw [dropna, List.count_filter]
    simp [h]

/-- C6: `dropna` removes exactly the rows having at least one missing
field; every all-present row is kept with unchanged multiplicity, and
the kept rows appear in their original relative order (the result is a
sublist of the input). -/
theorem dropna_removes_exactly_rows_with_missing {α : Type} [DecidableEq α]
    (rows : List (List (Option α))) :
    List.Sublist (dropna rows) rows ∧
      (∀ r, (dropna rows).count r = if rowHasNA r then 0 else rows.count r) ∧
      (∀ r, r ∈ dropna rows ↔ r ∈ rows ∧ rowHasNA r = false) := by
  refine ⟨List.filter_sublist rows, fun r => count_dropna_eq rows r, fun r => ?_⟩
  rw [dropna, List.mem_filter]
  simp

/-! ## Billboard date construction -/

/-- Date construction for the billboard rows: the parsed entered date
plus a week-unit timedelta for the week number minus a one-week
offset, with timestamps modelled as whole days (a week timedelta is 7
days and a one-week offset is 7 days). -/
def billboardDate (entered : Int) (week : Int) : Int :=
  entered + 7 * week - 7

/-- Week extraction with the pattern `(\d+)` via `str.extract`:
`re.search` finds the leftmost digit run; the capture is that maximal
run of digits. -/
def firstDigitRun : List Char → Option (List Char)
  | [] => none
  | c :: rest =>
    if c.isDigit then some (c :: rest.takeWhile Char.isDigit)
    else firstDigitRun rest

/-- Numeric value of a digit string (the subsequent `.astype(int)`). -/
def digitsToNat (ds : List Char) : Nat :=
  ds.foldl (fun a c => 10 * a + (c.toNat - 48)) 0

/-- Week number extracted from a former column header such as
`x1st.week`. -/
def extractWeek (s : String) : Option Nat :=
  (firstDigitRun s.data).map digitsToNat

/-- C9: in the tidy billboard table the derived `date` equals the
parsed `date.entered` plus exactly `7 * (week - 1)` days, where the
week number is the integer extracted from the former column header; in
particular week 1 maps to `date.entered` itself. -/
theorem billboard_date_is_entered_plus_weeks :
    (∀ entered week : Int, billboardDate entered week = entered + 7 * (week - 1)) ∧
      (∀ entered : Int, billboardDate entered 1 = entered) ∧
      extractWeek "x1st.week" = some 1 ∧
      extractWeek "x2nd.week" = some 2 ∧
      extractWeek "x75th.week" = some 75 := by
  refine ⟨fun e w => by simp [billboardDate]; ring, fun e => by simp [billboardDate], ?_, ?_, ?_⟩
  · decide
  · decide
  · decide

/-! ## to_json records orientation (people/states merged table) -/

/-- A minimal JSON value model for `to_json`. -/
inductive Json : Type
  | str (s : String)
  | num (q : Int)
  | null
  | arr (l : List Json)
  | obj (fields : List (String × Json))

/-- Pair column names with the cells of a row, one field per column. -/
def zipObj : List String → List Json → List (String × Json)
  | c :: cs, v :: vs => (c, v) :: zipObj cs vs
  | _, _ => []

/-- Row serializer for the records orientation of `to_json`: one
object per row, produced in row order. -/
def recordsOf (cols : List String) : List (List Json) → List Json
  | [] => []
  | r :: rs => Json.obj (zipObj cols r) :: recordsOf cols rs

/-- Model of the `df.to_json` call with the records orientation: the
file contents are a single JSON array of the row objects. -/
def to_json_records (cols : List String) (rows : List (List Json)) : Json :=
  Json.arr (recordsOf cols rows)

theorem zipObj_eq_zip (cs : List String) (vs : List Json) :
    zipObj cs vs = cs.zip vs := by
  induction cs generalizing vs with
  | nil => cases vs <;> rfl
  | cons c cs ih =>
    cases vs with
    | nil => rfl
    | cons v vs => simp [zipObj, List.zip_cons_cons, ih]

/-- C7: the only file output is the JSON written in
"one object per row" orientation: a list containing, for each row of
the merged table in order, one object pairing each column name with
the value of that row. -/
theorem to_json_records_is_list_of_row_objects
    (cols : List String) (rows : List (List Json)) :
    to_json_records cols rows =
        Json.arr (rows.map fun r => Json.obj (cols.zip r)) ∧
      (recordsOf cols rows).length = rows.length := by
  constructor
  · rw [to_json_records]
    congr 1
    induction rows with
    | nil => rfl
    | cons r rs ih => simp [recordsOf, ih, zipObj_eq_zip]
  · induction rows with
    | nil => rfl
    | cons r rs ih => simp [recordsOf, ih]

/-! ## Normalization of billboard into songs and ranks (C2, C8) -/

/-- The five song-attribute columns kept in `songs_cols`. -/
structure SongKey where
  year : Int
  artistInverted : String
  track : String
  time : String
  genre : String
deriving DecidableEq

/-- One row of the tidy `billboard` table (the columns kept after the
melt/cleanup step). -/
structure BillboardRow where
  year : Int
  artistInverted : String
  track : String
  time : String
  genre : String
  week : Int
  rank : Int
  date : Int
deriving DecidableEq

/-- Projection `billboard[songs_cols]`: restrict a billboard row to
the five song-attribute columns. -/
def songKey (r : BillboardRow) : SongKey :=
  ⟨r.year, r.artistInverted, r.track, r.time, r.genre⟩

/-- Worker for `drop_duplicates`: keep the first occurrence of every
value, in order; `seen` holds the values already emitted. -/
def dropDupAux {κ : Type} [DecidableEq κ] : List κ → List κ → List κ
  | _, [] => []
  | seen, k :: rest =>
    if k ∈ seen then dropDupAux seen rest
    else k :: dropDupAux (k :: seen) rest

/-- Model of `df.drop_duplicates()` with the default keep-first
policy: first occurrences in original order. -/
def drop_duplicates {κ : Type} [DecidableEq κ] (l : List κ) : List κ :=
  dropDupAux [] l

/-- Steps `reset_index(drop=True)` followed by the `song_id`
assignment from the fresh index: pair each row with its positional
index. -/
def withIds {κ : Type} (l : List κ) : List (κ × Nat) :=
  l.enum.map fun p => (p.2, p.1)

/-- The `songs` table: deduplicated song attributes with the surrogate
key `song_id` taken from the fresh integer index. -/
def songsTable (bb : List BillboardRow) : List (SongKey × Nat) :=
  withIds (drop_duplicates (bb.map songKey))

/-- Model of `pd.merge(left, right, on=cols)` (inner join, the
default): every left row is paired with each right row whose join key
matches, in left-row order. -/
def innerMerge {A B κ : Type} [DecidableEq κ]
    (left : List A) (right : List B) (kl : A → κ) (kr : B → κ) : List (A × B) :=
  left.flatMap fun l => (right.filter fun r => kr r = kl l).map fun r => (l, r)

/-- Association-list lookup (first matching key). -/
def alookup {κ β : Type} [DecidableEq κ] (k : κ) : List (κ × β) → Option β
  | [] => none
  | p :: rest => if p.1 = k then some p.2 else alookup k rest

/-- The `ranks` fact table: merge `billboard` with `songs` on the five
song columns, then keep only `song_id`, `date` and `rank`. -/
def ranksTable (bb : List BillboardRow) : List (Nat × Int × Int) :=
  (innerMerge bb (songsTable bb) songKey (fun s => s.1)).map
    fun p => (p.2.2, p.1.date, p.1.rank)

theorem mem_dropDupAux {κ : Type} [DecidableEq κ]
    (l : List κ) (seen : List κ) (a : κ) :
    a ∈ dropDupAux seen l ↔ a ∈ l ∧ a ∉ seen := by
  induction l generalizing seen with
  | nil => simp [dropDupAux]
  | cons k rest ih =>
    by_cases hk : k ∈ seen
    · rw [dropDupAux, if_pos hk, ih]
      constructor
      · rintro ⟨h1, h2⟩
        exact ⟨List.mem_cons_of_mem _ h1, h2⟩
      · rintro ⟨h1, h2⟩
        rcases List.mem_cons.mp h1 with h | h
        · exact absurd (h ▸ hk) h2
        · exact ⟨h, h2⟩
    · rw [dropDupAux, if_neg hk]
      constructor
      · intro h
        rcases List.mem_cons.mp h with h | h
        · exact ⟨h ▸ List.mem_cons_self k rest, h ▸ hk⟩
        · rw [ih] at h
          refine ⟨List.mem_cons_of_mem _ h.1, fun hc => h.2 (List.mem_cons_of_mem _ hc)⟩
      · rintro ⟨h1, h2⟩
        rcases List.mem_cons.mp h1 with h | h
        · exact h ▸ List.mem_cons_self k _
        · by_cases hak : a = k
          · exact hak ▸ List.mem_cons_self k _
          · refine List.mem_cons_of_mem _ ((ih (k :: seen)).mpr ⟨h, fun hc => ?_⟩)
            rcases List.mem_cons.mp hc with h' | h'
            · exact hak h'
            · exact h2 h'

theorem nodup_dropDupAux {κ : Type} [DecidableEq κ]
    (l : List κ) (seen : List κ) :
    (dropDupAux seen l).Nodup := by
  induction l generalizing seen with
  | nil => simp [dropDupAux]
  | cons k rest ih =>
    by_cases hk : k ∈ seen
    · rw [dropDupAux, if_pos hk]
      exact ih seen
    · rw [dropDupAux, if_neg hk]
      refine List.Nodup.cons (fun hc => ?_) (ih (k :: seen))
      exact ((mem_dropDupAux rest (k :: seen) k).mp hc).2 (List.mem_cons_self k seen)

theorem mem_drop_duplicates {κ : Type} [DecidableEq κ] (l : List κ) (a : κ) :
    a ∈ drop_duplicates l ↔ a ∈ l := by
  rw [drop_duplicates, mem_dropDupAux]
  simp

theorem nodup_drop_duplicates {κ : Type} [DecidableEq κ] (l : List κ) :
    (drop_duplicates l).Nodup := nodup_dropDupAux l []

theorem toFinset_drop_duplicates {κ : Type} [DecidableEq κ] (l : List κ) :
    (drop_duplicates l).toFinset = l.toFinset := by
  ext a
  simp [mem_drop_duplicates]

theorem length_drop_duplicates {κ : Type} [DecidableEq κ] (l : List κ) :
    (drop_duplicates l).length = l.toFinset.card := by
  rw [← toFinset_drop_duplicates l]
  exact (List.toFinset_card_of_nodup (nodup_drop_duplicates l)).symm

theorem withIds_map_fst {κ : Type} (l : List κ) :
    (withIds l).map (fun p => p.1) = l := by
  rw [withIds, List.map_map]
  have : ((fun p : κ × Nat => p.1) ∘ fun p : Nat × κ => (p.2, p.1)) = Prod.snd := rfl
  rw [this, List.enum_map_snd]

theorem withIds_map_snd {κ : Type} (l : List κ) :
    (withIds l).map (fun p => p.2) = List.range l.length := by
  rw [withIds, List.map_map]
  have : ((fun p : κ × Nat => p.2) ∘ fun p : Nat × κ => (p.2, p.1)) = Prod.fst := rfl
  rw [this, List.enum_map_fst]

theorem withIds_length {κ : Type} (l : List κ) :
    (withIds l).length = l.length := by
  simp [withIds, List.enum_length]

theorem filter_eq_singleton_of_nodup {κ β : Type} [DecidableEq κ]
    (S : List (κ × β)) (hS : (S.map Prod.fst).Nodup) (k : κ)
    (hk : k ∈ S.map Prod.fst) :
    ∃ v, S.filter (fun p => p.1 = k) = [(k, v)] ∧ alookup k S = some v := by
  induction S with
  | nil => simp at hk
  | cons p rest ih =>
    obtain ⟨p1, p2⟩ := p
    rw [List.map_cons, List.nodup_cons] at hS
    by_cases hpk : p1 = k
    · subst hpk
      refine ⟨p2, ?_, ?_⟩
      · have hnil : rest.filter (fun q => q.1 = p1) = [] := by
          rw [List.filter_eq_nil_iff]
          intro q hq
          simp only [decide_eq_true_eq]
          intro hqk
          apply hS.1
          rw [← hqk]
          exact List.mem_map.mpr ⟨q, hq, rfl⟩
        rw [List.filter_cons]
        simp [hnil]
      · simp [alookup]
    · have hk' : k ∈ rest.map Prod.fst := by
        rcases List.mem_cons.mp hk with h | h
        · exact absurd h.symm hpk
        · exact h
      rcases ih hS.2 hk' with ⟨v, hfil, hlook⟩
      refine ⟨v, ?_, ?_⟩
      · rw [List.filter_cons]
        simp [hpk, hfil]
      · rw [alookup, if_neg hpk, hlook]

theorem innerMerge_assoc_eq {A κ : Type} [DecidableEq κ]
    (left : List A) (S : List (κ × Nat)) (kl : A → κ)
    (hS : (S.map Prod.fst).Nodup)
    (hmem : ∀ a ∈ left, kl a ∈ S.map Prod.fst) :
    innerMerge left S kl Prod.fst =
      left.map fun a => (a, (kl a, (alookup (kl a) S).getD 0)) := by
  induction left with
  | nil => rfl
  | cons a rest ih =>
    rw [innerMerge, List.flatMap_cons]
    rcases filter_eq_singleton_of_nodup S hS (kl a)
      (hmem a (List.mem_cons_self a rest)) with ⟨v, hfil, hlook⟩
    have htail := ih fun b hb => hmem b (List.mem_cons_of_mem a hb)
    rw [innerMerge] at htail
    rw [hfil, htail]
    simp [hlook]

theorem songsTable_keys_nodup (bb : List BillboardRow) :
    ((songsTable bb).map Prod.fst).Nodup := by
  rw [songsTable, withIds_map_fst]
  exact nodup_drop_duplicates _

theorem songKey_mem_songsTable (bb : List BillboardRow) (r : BillboardRow)
    (hr : r ∈ bb) : songKey r ∈ (songsTable bb).map Prod.fst := by
  rw [songsTable, withIds_map_fst, mem_drop_duplicates]
  exact List.mem_map_of_mem songKey hr

/-- C2: deduplicating the five song-attribute columns yields the
`songs` table with surrogate key `song_id`; joining it back onto
`billboard` on those five columns matches every billboard row with its
unique `songs` row and assigns the `song_id` of that row, and the resulting
`ranks` table keeps only `song_id`, `date` and `rank`. -/
theorem ranks_join_assigns_unique_song_id (bb : List BillboardRow) :
    (∀ r, r ∈ bb →
        ∃ sid, (songsTable bb).filter (fun s => s.1 = songKey r) = [(songKey r, sid)] ∧
          alookup (songKey r) (songsTable bb) = some sid) ∧
      ranksTable bb =
        bb.map fun r =>
          ((alookup (songKey r) (songsTable bb)).getD 0, r.date, r.rank) := by
  constructor
  · intro r hr
    exact filter_eq_singleton_of_nodup (songsTable bb) (songsTable_keys_nodup bb)
      (songKey r) (songKey_mem_songsTable bb r hr)
  · rw [ranksTable, innerMerge_assoc_eq bb (songsTable bb) songKey
      (songsTable_keys_nodup bb) (fun r hr => songKey_mem_songsTable bb r hr)]
    rw [List.map_map]
    rfl

/-- A small concrete billboard table: one song charting two weeks and a
second song charting once. -/
def exampleBillboard : List BillboardRow :=
  [⟨2000, "A", "T", "3:38", "Rock", 1, 78, 100⟩,
   ⟨2000, "A", "T", "3:38", "Rock", 2, 63, 107⟩,
   ⟨2000, "B", "U", "4:12", "Rock", 1, 15, 200⟩]

theorem ranks_join_assigns_unique_song_id_witness :
    (∃ sid,
        (songsTable exampleBillboard).filter
            (fun s => s.1 = songKey ⟨2000, "A", "T", "3:38", "Rock", 2, 63, 107⟩) =
          [(songKey ⟨2000, "A", "T", "3:38", "Rock", 2, 63, 107⟩, sid)] ∧
          alookup (songKey ⟨2000, "A", "T", "3:38", "Rock", 2, 63, 107⟩)
            (songsTable exampleBillboard) = some sid) ∧
      ranksTable exampleBillboard =
        exampleBillboard.map fun r =>
          ((alookup (songKey r) (songsTable exampleBillboard)).getD 0, r.date, r.rank) :=
  ⟨(ranks_join_assigns_unique_song_id exampleBillboard).1
      ⟨2000, "A", "T", "3:38", "Rock", 2, 63, 107⟩ (by decide),
    (ranks_join_assigns_unique_song_id exampleBillboard).2⟩

/-- C8: after deduplication, index reset and `song_id` assignment, the
`song_id` column of `songs` is exactly `0, 1, ..., n-1` in row order,
where `n` is the number of distinct (year, artist.inverted, track,
time, genre) tuples; the song-key columns are duplicate-free (so
`song_id` keys exactly one row per distinct tuple), and the keys are
exactly the distinct tuples of `billboard`. -/
theorem songs_song_id_consecutive_primary_key (bb : List BillboardRow) :
    (songsTable bb).map (fun s => s.2) = List.range (songsTable bb).length ∧
      ((songsTable bb).map Prod.fst).Nodup ∧
      (songsTable bb).length = (bb.map songKey).toFinset.card ∧
      (∀ k, k ∈ (songsTable bb).map Prod.fst ↔ k ∈ bb.map songKey) := by
  refine ⟨?_, songsTable_keys_nodup bb, ?_, fun k => ?_⟩
  · rw [songsTable, withIds_map_snd, withIds_length]
  · rw [songsTable, withIds_length, length_drop_duplicates]
  · rw [songsTable, withIds_map_fst, mem_drop_duplicates]

/-! ## pivot_table (weather re-pivot, C5) -/

/-- Mean, the default `pivot_table` aggregation function. -/
def mean (l : List ℚ) : ℚ :=
  l.sum / l.length

/-- Add one (key, value) observation to a list of groups: append the
value to the first group with this key, or open a new group at the
end. -/
def insertGrouped {κ β : Type} [DecidableEq κ] (k : κ) (v : β) :
    List (κ × List β) → List (κ × List β)
  | [] => [(k, [v])]
  | g :: rest =>
    if g.1 = k then (g.1, g.2 ++ [v]) :: rest
    else g :: insertGrouped k v rest

/-- Group a list of (key, value) pairs by key (groupby semantics:
values of equal keys collected together, in encounter order). -/
def groupPairs {κ β : Type} [DecidableEq κ] (l : List (κ × β)) : List (κ × List β) :=
  l.foldl (fun acc p => insertGrouped p.1 p.2 acc) []

/-- Spread the (category, value) pairs of one group into one field
per distinct category, holding the mean of the values of that
category. -/
def spreadGroup (g : List (String × ℚ)) : List (String × ℚ) :=
  (groupPairs g).map fun h => (h.1, mean h.2)

/-- Model of `df.pivot_table(index=..., columns=..., values=...)`: group the
long rows by the index key, then within each group spread the
categorical column into one field per distinct category holding the
mean of the paired values. -/
def pivot_table {κ : Type} [DecidableEq κ]
    (long : List (κ × String × ℚ)) : List (κ × List (String × ℚ)) :=
  (groupPairs long).map fun g => (g.1, spreadGroup g.2)

/-- The cell of the pivoted table at index key `k` and spread column
`c` (missing when the table has no such cell). -/
def pivotCell {κ : Type} [DecidableEq κ]
    (long : List (κ × String × ℚ)) (k : κ) (c : String) : Option ℚ :=
  match alookup k (pivot_table long) with
  | none => none
  | some fields => alookup c fields

/-- The raw values of the long table carrying index key `k` and
category `c` (the group over which a pivot cell aggregates). -/
def cellsFor {κ : Type} [DecidableEq κ]
    (long : List (κ × String × ℚ)) (k : κ) (c : String) : List ℚ :=
  (long.filter fun r => r.1 = k ∧ r.2.1 = c).map fun r => r.2.2

theorem alookup_insertGrouped {κ β : Type} [DecidableEq κ]
    (acc : List (κ × List β)) (k k' : κ) (v : β) :
    alookup k (insertGrouped k' v acc) =
      if k' = k then
        match alookup k acc with
        | none => some [v]
        | some vs => some (vs ++ [v])
      else alookup k acc := by
  induction acc with
  | nil =>
    by_cases h : k' = k <;> simp [insertGrouped, alookup, h]
  | cons g rest ih =>
    by_cases hgk' : g.1 = k'
    · rw [insertGrouped, if_pos hgk']
      by_cases hk : k' = k
      · subst hk
        rw [alookup, if_pos hgk', alookup, if_pos hgk']
        simp
      · have hgk : ¬ g.1 = k := fun h => hk (hgk' ▸ h)
        rw [alookup, if_neg hgk, alookup, if_neg hgk, if_neg hk]
    · rw [insertGrouped, if_neg hgk']
      by_cases hgk : g.1 = k
      · have hk : ¬ k' = k := fun h => hgk' (h ▸ hgk)
        rw [alookup, if_pos hgk, if_neg hk, alookup, if_pos hgk]
      · rw [alookup, if_neg hgk, ih, alookup, if_neg hgk]

theorem alookup_foldl_insertGrouped {κ β : Type} [DecidableEq κ]
    (l : List (κ × β)) (acc : List (κ × List β)) (k : κ) :
    alookup k (l.foldl (fun a p => insertGrouped p.1 p.2 a) acc) =
      if (alookup k acc).isNone && (l.filter fun p => p.1 = k).isEmpty then none
      else some ((alookup k acc).getD [] ++ (l.filter fun p => p.1 = k).map Prod.snd) := by
  induction l generalizing acc with
  | nil =>
    cases h : alookup k acc <;> simp [h]
  | cons p l ih =>
    rw [List.foldl_cons, ih, alookup_insertGrouped, List.filter_cons]
    by_cases hpk : p.1 = k
    · rw [if_pos hpk, if_pos (show decide (p.1 = k) = true by simp [hpk])]
      cases h : alookup k acc <;> simp [h, List.append_assoc]
    · rw [if_neg hpk, if_neg (show ¬ decide (p.1 = k) = true by simp [hpk])]

theorem alookup_groupPairs {κ β : Type} [DecidableEq κ]
    (l : List (κ × β)) (k : κ) :
    alookup k (groupPairs l) =
      if (l.filter fun p => p.1 = k).isEmpty then none
      else some ((l.filter fun p => p.1 = k).map Prod.snd) := by
  rw [groupPairs, alookup_foldl_insertGrouped]
  cases h : (l.filter fun p => p.1 = k).isEmpty <;> simp [alookup, h]

theorem alookup_map_value {κ β γ : Type} [DecidableEq κ]
    (xs : List (κ × β)) (f : β → γ) (k : κ) :
    alookup k (xs.map fun g => (g.1, f g.2)) = (alookup k xs).map f := by
  induction xs with
  | nil => rfl
  | cons g rest ih =>
    by_cases h : g.1 = k
    · simp [alookup, h]
    · simp [alookup, h, ih]

theorem pivotCell_eq_mean_of_group {κ : Type} [DecidableEq κ]
    (long : List (κ × String × ℚ)) (k : κ) (c : String) :
    pivotCell long k c =
      if cellsFor long k c = [] then none
      else some (mean (cellsFor long k c)) := by
  rw [pivotCell, pivot_table, alookup_map_value, alookup_groupPairs]
  have hsplit :
      (long.filter fun r => r.1 = k ∧ r.2.1 = c) =
        ((long.filter fun r => r.1 = k).filter fun r => r.2.1 = c) := by
    rw [List.filter_filter]
    apply List.filter_congr
    intro r _
    by_cases h1 : r.1 = k <;> by_cases h2 : r.2.1 = c <;> simp [h1, h2]
  by_cases hk : (long.filter fun r => r.1 = k) = []
  · have hcells : cellsFor long k c = [] := by
      rw [cellsFor, hsplit, hk]
      rfl
    rw [hk]
    simp [hcells]
  · rw [if_neg (by simpa [List.isEmpty_iff] using hk)]
    simp only [Option.map_some']
    rw [spreadGroup, alookup_map_value, alookup_groupPairs]
    have hfm :
        (((long.filter fun r => r.1 = k).map Prod.snd).filter fun h => h.1 = c) =
          ((long.filter fun r => r.1 = k).filter fun r => r.2.1 = c).map Prod.snd := by
      rw [List.filter_map]
      rfl
    by_cases hc : cellsFor long k c = []
    · have hnil : ((long.filter fun r => r.1 = k).filter fun r => r.2.1 = c) = [] := by
        rw [cellsFor, hsplit] at hc
        exact List.map_eq_nil_iff.mp hc
      rw [if_pos hc, if_pos (by simp [hfm, hnil])]
      rfl
    · have hne : ((long.filter fun r => r.1 = k).filter fun r => r.2.1 = c) ≠ [] := by
        intro hnil
        apply hc
        rw [cellsFor, hsplit, hnil]
        rfl
      have hcond :
          ¬ ((((long.filter fun r => r.1 = k).map Prod.snd).filter
              fun h => h.1 = c).isEmpty = true) := by
        rw [hfm, List.isEmpty_iff]
        intro hnil
        exact hne (List.map_eq_nil_iff.mp hnil)
      rw [if_neg hc, if_neg hcond]
      simp only [Option.map_some']
      congr 1
      rw [hfm, cellsFor, hsplit]
      rw [List.map_map]
      rfl

theorem insertGrouped_keys {κ β : Type} [DecidableEq κ]
    (acc : List (κ × List β)) (k : κ) (v : β) :
    (insertGrouped k v acc).map Prod.fst =
      if k ∈ acc.map Prod.fst then acc.map Prod.fst
      else acc.map Prod.fst ++ [k] := by
  induction acc with
  | nil => simp [insertGrouped]
  | cons g rest ih =>
    by_cases hgk : g.1 = k
    · rw [insertGrouped, if_pos hgk]
      simp [hgk]
    · rw [insertGrouped, if_neg hgk]
      have hne : ¬ k = g.1 := fun h => hgk h.symm
      by_cases hk : k ∈ rest.map Prod.fst
      · simp [hk, hne, ih]
      · simp [hk, hne, ih]

theorem dropDupAux_congr_seen {κ : Type} [DecidableEq κ]
    (l : List κ) (seen seen' : List κ)
    (h : ∀ a, a ∈ seen ↔ a ∈ seen') :
    dropDupAux seen l = dropDupAux seen' l := by
  induction l generalizing seen seen' with
  | nil => rfl
  | cons k rest ih =>
    by_cases hk : k ∈ seen
    · rw [dropDupAux, if_pos hk, dropDupAux, if_pos ((h k).mp hk)]
      exact ih seen seen' h
    · rw [dropDupAux, if_neg hk, dropDupAux, if_neg (fun hc => hk ((h k).mpr hc))]
      rw [ih (k :: seen) (k :: seen') fun a => by simp [h a]]

theorem foldl_insertGrouped_keys {κ β : Type} [DecidableEq κ]
    (l : List (κ × β)) (acc : List (κ × List β)) :
    (l.foldl (fun a p => insertGrouped p.1 p.2 a) acc).map Prod.fst =
      acc.map Prod.fst ++ dropDupAux (acc.map Prod.fst) (l.map Prod.fst) := by
  induction l generalizing acc with
  | nil => simp [dropDupAux]
  | cons p l ih =>
    rw [List.foldl_cons, ih, insertGrouped_keys, List.map_cons, dropDupAux]
    by_cases hp : p.1 ∈ acc.map Prod.fst
    · rw [if_pos hp, if_pos hp]
    · rw [if_neg hp, if_neg hp]
      rw [List.append_assoc, List.singleton_append]
      congr 1
      congr 1
      apply dropDupAux_congr_seen
      intro a
      simp [or_comm]

theorem groupPairs_keys {κ β : Type} [DecidableEq κ] (l : List (κ × β)) :
    (groupPairs l).map Prod.fst = drop_duplicates (l.map Prod.fst) := by
  rw [groupPairs, foldl_insertGrouped_keys]
  rfl

/-- C5: `pivot_table` groups the long rows by the composite index and
spreads the categorical column: the output has one row per distinct
index key (in encounter order, like `drop_duplicates`), and the cell
at key `k` and category `c` is the mean of the paired value column
over exactly the rows of that group carrying category `c` (missing
when the group has no such row). -/
theorem pivot_table_groups_and_aggregates {κ : Type} [DecidableEq κ]
    (long : List (κ × String × ℚ)) :
    (pivot_table long).map Prod.fst = drop_duplicates (long.map Prod.fst) ∧
      ∀ k c, pivotCell long k c =
        if cellsFor long k c = [] then none
        else some (mean (cellsFor long k c)) := by
  constructor
  · rw [pivot_table, List.map_map]
    have : (Prod.fst ∘ fun g : κ × List (String × ℚ) => (g.1, spreadGroup g.2)) =
        Prod.fst := rfl
    rw [this, groupPairs_keys]
  · exact fun k c => pivotCell_eq_mean_of_group long k c

/-! ## Pivot inverts melt (C3) -/

theorem meltGo_cat_mem {κ α : Type} [Inhabited α]
    (cs : List String) (rows : List (κ × List α)) :
    ∀ x ∈ meltGo cs rows, x.2.1 ∈ cs := by
  induction cs generalizing rows with
  | nil => simp [meltGo]
  | cons c cs ih =>
    intro x hx
    rw [meltGo, List.mem_append] at hx
    rcases hx with hx | hx
    · rcases List.mem_map.mp hx with ⟨r, _, hr⟩
      rw [← hr]
      exact List.mem_cons_self c cs
    · exact List.mem_cons_of_mem c (ih _ x hx)

theorem filter_key_singleton {κ β : Type} [DecidableEq κ]
    (S : List (κ × β)) (hS : (S.map Prod.fst).Nodup) (k : κ) (vs : β)
    (hmem : (k, vs) ∈ S) :
    S.filter (fun r => r.1 = k) = [(k, vs)] := by
  rcases filter_eq_singleton_of_nodup S hS k
    (List.mem_map.mpr ⟨(k, vs), hmem, rfl⟩) with ⟨v, hfil, _⟩
  have hin : (k, vs) ∈ S.filter (fun r => r.1 = k) := by
    rw [List.mem_filter]
    exact ⟨hmem, by simp⟩
  rw [hfil] at hin
  rcases List.mem_singleton.mp hin with h
  rw [hfil, ← h]

theorem getD_tail_succ {α : Type} [Inhabited α] (l : List α) (j : Nat) :
    l.tail.getD j default = l.getD (j + 1) default := by
  cases l <;> simp [List.getD]

theorem cellsFor_meltGo {κ : Type} [DecidableEq κ]
    (cs : List String) (rows : List (κ × List ℚ)) (k : κ) (vs : List ℚ)
    (hcs : cs.Nodup)
    (hrow : rows.filter (fun r => r.1 = k) = [(k, vs)]) :
    ∀ j, j < cs.length →
      cellsFor (meltGo cs rows) k (cs.getD j "") = [vs.getD j default] := by
  induction cs generalizing rows vs with
  | nil =>
    intro j hj
    simp at hj
  | cons c cs ih =>
    rw [List.nodup_cons] at hcs
    intro j hj
    rw [meltGo, cellsFor, List.filter_append, List.map_append]
    cases j with
    | zero =>
      have htgt : (c :: cs).getD 0 "" = c := rfl
      rw [htgt]
      have hblock :
          ((rows.map fun r => (r.1, c, r.2.headD default)).filter
              fun r => r.1 = k ∧ r.2.1 = c) =
            (rows.filter fun r => r.1 = k).map
              fun r => (r.1, c, r.2.headD default) := by
        rw [List.filter_map]
        congr 1
        apply List.filter_congr
        intro r _
        by_cases h1 : r.1 = k <;> simp [h1]
      have hrest :
          ((meltGo cs (rows.map fun r => (r.1, r.2.tail))).filter
              fun r => r.1 = k ∧ r.2.1 = c) = [] := by
        rw [List.filter_eq_nil_iff]
        intro x hx
        simp only [decide_eq_true_eq, not_and]
        intro _ hxc
        exact hcs.1 (hxc ▸ meltGo_cat_mem cs _ x hx)
      rw [hblock, hrow, hrest]
      cases vs <;> simp
    | succ j =>
      have htgt : (c :: cs).getD (j + 1) "" = cs.getD j "" := rfl
      rw [htgt]
      have hjlt : j < cs.length := Nat.lt_of_succ_lt_succ hj
      have hcmem : cs.getD j "" ∈ cs := by
        rw [List.getD_eq_getElem cs "" hjlt]
        exact List.getElem_mem hjlt
      have hcne : ¬ c = cs.getD j "" := fun h => hcs.1 (h ▸ hcmem)
      have hblock :
          ((rows.map fun r => (r.1, c, r.2.headD default)).filter
              fun r => r.1 = k ∧ r.2.1 = cs.getD j "") = [] := by
        rw [List.filter_eq_nil_iff]
        intro x hx
        rcases List.mem_map.mp hx with ⟨r, _, hr⟩
        simp only [decide_eq_true_eq, not_and]
        intro _ hxc
        exact hcne (by rw [← hr] at hxc; exact hxc)
      have hrow' :
          ((rows.map fun r => (r.1, r.2.tail)).filter fun r => r.1 = k) =
            [(k, vs.tail)] := by
        rw [List.filter_map]
        have : ((fun r : κ × List ℚ => decide (r.1 = k)) ∘
            fun r : κ × List ℚ => (r.1, r.2.tail)) =
              fun r : κ × List ℚ => decide (r.1 = k) := rfl
        rw [this, hrow]
        rfl
      have := ih (rows.map fun r => (r.1, r.2.tail)) vs.tail hcs.2 hrow' j hjlt
      rw [cellsFor] at this
      rw [hblock, this]
      simp [getD_tail_succ]

theorem mean_singleton (x : ℚ) : mean [x] = x := by
  simp [mean]

/-- C3: pivot is the inverse of melt.  Melting a wide table whose
identifier combinations are pairwise distinct (so that each
(index-combination, category) pair occurs in exactly one long row) and
then pivoting the category column back with `pivot_table` recovers
exactly the cell values the wide table held. -/
theorem pivot_table_inverts_melt {κ : Type} [DecidableEq κ]
    (t : WTable κ ℚ)
    (hkeys : (t.rows.map Prod.fst).Nodup) (hcols : t.valueCols.Nodup) :
    ∀ k vs, (k, vs) ∈ t.rows → ∀ j, j < t.valueCols.length →
      pivotCell (melt t) k (t.valueCols.getD j "") = some (vs.getD j default) := by
  intro k vs hmem j hj
  have hrow : t.rows.filter (fun r => r.1 = k) = [(k, vs)] :=
    filter_key_singleton t.rows hkeys k vs hmem
  have hcells := cellsFor_meltGo t.valueCols t.rows k vs hcols hrow j hj
  rw [show melt t = meltGo t.valueCols t.rows from rfl]
  rw [pivotCell_eq_mean_of_group, hcells]
  rw [if_neg (by simp)]
  rw [mean_singleton]

/-- The weather example in miniature: two wide rows with distinct keys
and two day columns. -/
def exampleWeatherWide : WTable String ℚ :=
  ⟨["d1", "d2"], [("tmax", [29, 31]), ("tmin", [13, 14])]⟩

theorem pivot_table_inverts_melt_witness :
    pivotCell (melt exampleWeatherWide) "tmin"
        (exampleWeatherWide.valueCols.getD 1 "") = some (([13, 14] : List ℚ).getD 1 default) :=
  pivot_table_inverts_melt exampleWeatherWide (by decide) (by decide)
    "tmin" [13, 14] (by decide) 1 (by decide)

/-! ## Tuberculosis sex/age extraction (C4) -/

/-- Model of `re.search` with the pattern `(\D)(\d+)(\d{2})`: scan for the leftmost position
holding a non-digit followed by at least three digits.  The greedy
`\d+` takes all but the last two digits of the maximal run; `\d{2}`
takes those last two. -/
def searchTB : List Char → Option (Char × List Char × List Char)
  | [] => none
  | c :: rest =>
    if ¬ c.isDigit = true ∧ 3 ≤ (rest.takeWhile Char.isDigit).length then
      some (c,
        (rest.takeWhile Char.isDigit).take ((rest.takeWhile Char.isDigit).length - 2),
        (rest.takeWhile Char.isDigit).drop ((rest.takeWhile Char.isDigit).length - 2))
    else searchTB rest

/-- Extraction `df["sex_and_age"].str.extract("(\D)(\d+)(\d{2})", expand=False)`
applied to one cell: the three capture groups, or three missing values
when the pattern does not match anywhere in the string. -/
def tbExtract (s : String) : Option Char × Option String × Option String :=
  match searchTB s.data with
  | some g => (some g.1, some (String.mk g.2.1), some (String.mk g.2.2))
  | none => (none, none, none)

/-- Derived age column `tmp_df["age_lower"] + "-" + tmp_df["age_upper"]`:
string addition propagates missing values. -/
def ageCombine : Option String → Option String → Option String
  | some lo, some hi => some (lo ++ "-" ++ hi)
  | _, _ => none

/-- A string matches the pattern `(\D)(\d+)(\d{2})` under `re.search`
iff somewhere a non-digit character is immediately followed by at
least three digits. -/
def MatchesTB (cs : List Char) : Prop :=
  ∃ pre a b c d t, cs = pre ++ a :: b :: c :: d :: t ∧
    ¬ a.isDigit = true ∧ b.isDigit = true ∧ c.isDigit = true ∧ d.isDigit = true

theorem takeWhile_len3 (p : Char → Bool) (l : List Char) :
    3 ≤ (l.takeWhile p).length ↔
      ∃ b c d t, l = b :: c :: d :: t ∧ p b = true ∧ p c = true ∧ p d = true := by
  rcases l with _ | ⟨b, l⟩
  · simp [List.takeWhile]
  rcases l with _ | ⟨c, l⟩
  · by_cases hb : p b = true <;> simp [List.takeWhile, hb]
  rcases l with _ | ⟨d, l⟩
  · by_cases hb : p b = true <;> by_cases hc : p c = true <;>
      simp [List.takeWhile, hb, hc]
  · by_cases hb : p b = true <;> by_cases hc : p c = true <;>
      by_cases hd : p d = true <;> simp [List.takeWhile, hb, hc, hd]
    exact ⟨b, c, d, ⟨rfl, rfl, rfl⟩, hb, hc, hd⟩

theorem searchTB_isSome_iff (cs : List Char) :
    (searchTB cs).isSome = true ↔ MatchesTB cs := by
  induction cs with
  | nil =>
    rw [searchTB]
    simp only [Option.isSome_none, Bool.false_eq_true, false_iff]
    rintro ⟨pre, a, b, c, d, t, h, _⟩
    cases pre <;> simp at h
  | cons x rest ih =>
    rw [searchTB]
    by_cases hP : ¬ x.isDigit = true ∧ 3 ≤ (rest.takeWhile Char.isDigit).length
    · rw [if_pos hP]
      simp only [Option.isSome_some, true_iff]
      rcases (takeWhile_len3 Char.isDigit rest).mp hP.2 with ⟨b, c, d, t, hrest, hb, hc, hd⟩
      exact ⟨[], x, b, c, d, t, by rw [hrest, List.nil_append], hP.1, hb, hc, hd⟩
    · rw [if_neg hP, ih]
      constructor
      · rintro ⟨pre, a, b, c, d, t, hrest, ha, hb, hc, hd⟩
        exact ⟨x :: pre, a, b, c, d, t, by rw [hrest]; rfl, ha, hb, hc, hd⟩
      · rintro ⟨pre, a, b, c, d, t, hsplit, ha, hb, hc, hd⟩
        rcases pre with _ | ⟨y, pre⟩
        · rw [List.nil_append] at hsplit
          rcases List.cons.inj hsplit with ⟨hxa, hrest⟩
          exfalso
          apply hP
          refine ⟨hxa ▸ ha, ?_⟩
          rw [takeWhile_len3]
          exact ⟨b, c, d, t, hrest, hb, hc, hd⟩
        · rcases List.cons.inj hsplit with ⟨_, hrest⟩
          exact ⟨pre, a, b, c, d, t, hrest, ha, hb, hc, hd⟩

theorem searchTB_eq_none_of_not_matches (cs : List Char) (h : ¬ MatchesTB cs) :
    searchTB cs = none := by
  cases hs : searchTB cs with
  | none => rfl
  | some g =>
    exact absurd ((searchTB_isSome_iff cs).mp (by rw [hs]; rfl)) h

/-- Conversion `astype(int)` accepts digit strings only. -/
def isNumericString (s : String) : Bool :=
  !s.data.isEmpty && s.data.all Char.isDigit

/-- Model of `.astype(int)`: convert, or raise a library-level error
on a non-numeric value. -/
def astypeInt (s : String) : Except String Int :=
  if isNumericString s then Except.ok (digitsToNat s.data) else Except.error "ValueError"

/-- C4: on a cell that does not match the bespoke pattern
`(\D)(\d+)(\d{2})` (for example `m65` or `munknown`, which lack three
trailing digits), `str.extract` does not fail: it yields missing
values in all derived columns (`sex`, `age_lower`, `age_upper`, hence
also `age`), whereas `astype` on a non-numeric value propagates a
library-level failure. -/
theorem tb_extract_unmatched_gives_missing :
    (∀ s : String, ¬ MatchesTB s.data →
        tbExtract s = (none, none, none) ∧
          ageCombine (tbExtract s).2.1 (tbExtract s).2.2 = none) ∧
      ∀ v : String, isNumericString v = false →
        astypeInt v = Except.error "ValueError" := by
  constructor
  · intro s h
    have hnone : searchTB s.data = none := searchTB_eq_none_of_not_matches s.data h
    constructor
    · rw [tbExtract, hnone]
    · rw [tbExtract, hnone]
      rfl
  · intro v hv
    rw [astypeInt, if_neg (by simp [hv])]

theorem tb_extract_unmatched_gives_missing_witness :
    (tbExtract "m65" = (none, none, none) ∧
        ageCombine (tbExtract "m65").2.1 (tbExtract "m65").2.2 = none) ∧
      (tbExtract "munknown" = (none, none, none) ∧
        ageCombine (tbExtract "munknown").2.1 (tbExtract "munknown").2.2 = none) ∧
      astypeInt "unknown" = Except.error "ValueError" :=
  ⟨tb_extract_unmatched_gives_missing.1 "m65"
      (fun hm => absurd ((searchTB_isSome_iff ("m65".data)).mpr hm) (by decide)),
    tb_extract_unmatched_gives_missing.1 "munknown"
      (fun hm => absurd ((searchTB_isSome_iff ("munknown".data)).mpr hm) (by decide)),
    tb_extract_unmatched_gives_missing.2 "unknown" (by decide)⟩

/-! ## Baby-names file loading (C10) -/

/-- The literal separator of the file-name pattern
`.*([A-Z]{2})_baby_names_(\d{4}).*`. -/
def babySep : List Char := "_baby_names_".data

/-- Check that `ps` is an initial segment of `cs`. -/
def startsWithChars : List Char → List Char → Bool
  | [], _ => true
  | _ :: _, [] => false
  | p :: ps, c :: cs => if p = c then startsWithChars ps cs else false

/-- Try the pattern `([A-Z]{2})_baby_names_(\d{4}).*` anchored at the
start of `cs`: two uppercase letters, the literal separator, then four
digits, anything after. -/
def tryBaby (cs : List Char) : Option (String × String) :=
  match cs with
  | u :: v :: rest =>
    if u.isUpper = true ∧ v.isUpper = true ∧ startsWithChars babySep rest = true ∧
        ((rest.drop babySep.length).take 4).length = 4 ∧
        ((rest.drop babySep.length).take 4).all Char.isDigit = true then
      some (String.mk [u, v], String.mk ((rest.drop babySep.length).take 4))
    else none
  | _ => none

/-- Scan of `re.match(".*([A-Z]{2})_baby_names_(\d{4}).*", s)`: the
leading greedy `.*` makes the regex engine prefer the latest position
at which the rest of the pattern matches, so later positions are tried
first. -/
def matchBaby : List Char → Option (String × String)
  | [] => none
  | c :: rest =>
    match matchBaby rest with
    | some r => some r
    | none => tryBaby (c :: rest)

/-- Model of `extract_variables_from_filename`: the returned dictionary
with keys `state` and `year`, or `None` when the regex does not
match. -/
def extract_variables_from_filename (s : String) : Option (List (String × String)) :=
  (matchBaby s.data).map fun p => [("state", p.1), ("year", p.2)]

/-- Python subscripting `variables_dict["year"]`: a `TypeError` when
the value is `None`, the entry otherwise. -/
def subscriptYear (d : Option (List (String × String))) : Except String String :=
  match d with
  | none => Except.error "TypeError"
  | some fields =>
    match alookup "year" fields with
    | some v => Except.ok v
    | none => Except.error "KeyError"

/-- The loop body step `variables_dict = extract_variables_from_filename(file_);
df["year"] = variables_dict["year"]` for one globbed file. -/
def loadFileYear (file : String) : Except String String :=
  subscriptYear (extract_variables_from_filename file)

/-- A string matches `.*([A-Z]{2})_baby_names_(\d{4}).*` iff it
contains two uppercase letters, then the separator, then four
digits. -/
def MatchesBaby (cs : List Char) : Prop :=
  ∃ a u v d t, cs = a ++ u :: v :: (babySep ++ d ++ t) ∧
    u.isUpper = true ∧ v.isUpper = true ∧ d.length = 4 ∧ d.all Char.isDigit = true

theorem startsWithChars_iff (ps cs : List Char) :
    startsWithChars ps cs = true ↔ ∃ suf, cs = ps ++ suf := by
  induction ps generalizing cs with
  | nil =>
    simp [startsWithChars]
  | cons p ps ih =>
    cases cs with
    | nil =>
      rw [startsWithChars]
      simp
    | cons c cs =>
      rw [startsWithChars]
      by_cases hpc : p = c
      · rw [if_pos hpc, ih]
        constructor
        · rintro ⟨suf, h⟩
          exact ⟨suf, by rw [h, hpc]; rfl⟩
        · rintro ⟨suf, h⟩
          rcases List.cons.inj h with ⟨_, h2⟩
          exact ⟨suf, h2⟩
      · rw [if_neg hpc]
        simp only [Bool.false_eq_true, false_iff]
        rintro ⟨suf, h⟩
        rcases List.cons.inj h with ⟨h1, _⟩
        exact hpc h1.symm

theorem tryBaby_isSome_iff (cs : List Char) :
    (tryBaby cs).isSome = true ↔
      ∃ u v d t, cs = u :: v :: (babySep ++ d ++ t) ∧
        u.isUpper = true ∧ v.isUpper = true ∧ d.length = 4 ∧
        d.all Char.isDigit = true := by
  rcases cs with _ | ⟨u, _ | ⟨v, rest⟩⟩
  · rw [show tryBaby [] = none from rfl]
    simp only [Option.isSome_none, Bool.false_eq_true, false_iff]
    rintro ⟨u', v', d, t, h, _⟩
    simp at h
  · rw [show ∀ u : Char, tryBaby [u] = none from fun _ => rfl]
    simp only [Option.isSome_none, Bool.false_eq_true, false_iff]
    rintro ⟨u', v', d, t, h, _⟩
    simp at h
  · rw [tryBaby]
    by_cases hcond : u.isUpper = true ∧ v.isUpper = true ∧
        startsWithChars babySep rest = true ∧
        ((rest.drop babySep.length).take 4).length = 4 ∧
        ((rest.drop babySep.length).take 4).all Char.isDigit = true
    · rw [if_pos hcond]
      simp only [Option.isSome_some, true_iff]
      rcases hcond with ⟨hu, hv, hpre, hlen, hdig⟩
      rcases (startsWithChars_iff babySep rest).mp hpre with ⟨suf, hsuf⟩
      have hdrop : rest.drop babySep.length = suf := by
        rw [hsuf, List.drop_left]
      refine ⟨u, v, suf.take 4, suf.drop 4, ?_, hu, hv, ?_, ?_⟩
      · rw [hsuf, List.append_assoc, List.take_append_drop]
      · rw [← hdrop]
        exact hlen
      · rw [← hdrop]
        exact hdig
    · rw [if_neg hcond]
      simp only [Option.isSome_none, Bool.false_eq_true, false_iff]
      rintro ⟨u', v', d, t, hsplit, hu, hv, hd4, hdig⟩
      rcases List.cons.inj hsplit with ⟨hu', hsplit2⟩
      rcases List.cons.inj hsplit2 with ⟨hv', hrest⟩
      apply hcond
      have hdrop : rest.drop babySep.length = d ++ t := by
        rw [hrest, List.append_assoc, List.drop_left]
      have htake : (rest.drop babySep.length).take 4 = d := by
        rw [hdrop, ← hd4, List.take_left]
      refine ⟨hu' ▸ hu, hv' ▸ hv, ?_, ?_, ?_⟩
      · rw [startsWithChars_iff]
        exact ⟨d ++ t, by rw [hrest, List.append_assoc]⟩
      · rw [htake, hd4]
      · rw [htake]
        exact hdig

theorem tryBaby_some_props (cs : List Char) (st yr : String)
    (h : tryBaby cs = some (st, yr)) :
    st.data.length = 2 ∧ st.data.all Char.isUpper = true ∧
      yr.data.length = 4 ∧ yr.data.all Char.isDigit = true := by
  rcases cs with _ | ⟨u, _ | ⟨v, rest⟩⟩
  · exact Option.noConfusion h
  · exact Option.noConfusion h
  · rw [tryBaby] at h
    by_cases hcond : u.isUpper = true ∧ v.isUpper = true ∧
        startsWithChars babySep rest = true ∧
        ((rest.drop babySep.length).take 4).length = 4 ∧
        ((rest.drop babySep.length).take 4).all Char.isDigit = true
    · rw [if_pos hcond] at h
      injection h with h2
      injection h2 with hst hyr
      refine ⟨?_, ?_, ?_, ?_⟩
      · rw [← hst]
        rfl
      · rw [← hst]
        simp [hcond.1, hcond.2.1]
      · rw [← hyr]
        exact hcond.2.2.2.1
      · rw [← hyr]
        exact hcond.2.2.2.2
    · rw [if_neg hcond] at h
      exact Option.noConfusion h

theorem matchBaby_isSome_iff (cs : List Char) :
    (matchBaby cs).isSome = true ↔ MatchesBaby cs := by
  induction cs with
  | nil =>
    rw [show matchBaby [] = none from rfl]
    simp only [Option.isSome_none, Bool.false_eq_true, false_iff]
    rintro ⟨a, u, v, d, t, h, _⟩
    cases a <;> simp at h
  | cons x rest ih =>
    rw [matchBaby]
    cases hm : matchBaby rest with
    | some r =>
      simp only [Option.isSome_some, true_iff]
      have hmm : MatchesBaby rest := ih.mp (by rw [hm]; rfl)
      rcases hmm with ⟨a, u, v, d, t, hsplit, hu, hv, hd, hdig⟩
      exact ⟨x :: a, u, v, d, t, by rw [hsplit]; rfl, hu, hv, hd, hdig⟩
    | none =>
      rw [tryBaby_isSome_iff]
      constructor
      · rintro ⟨u, v, d, t, hsplit, hu, hv, hd, hdig⟩
        exact ⟨[], u, v, d, t, by rw [hsplit]; rfl, hu, hv, hd, hdig⟩
      · rintro ⟨a, u, v, d, t, hsplit, hu, hv, hd, hdig⟩
        rcases a with _ | ⟨y, a⟩
        · rw [List.nil_append] at hsplit
          exact ⟨u, v, d, t, hsplit, hu, hv, hd, hdig⟩
        · rcases List.cons.inj hsplit with ⟨_, h2⟩
          have hr : MatchesBaby rest := ⟨a, u, v, d, t, h2, hu, hv, hd, hdig⟩
          have hcontra := ih.mpr hr
          rw [hm] at hcontra
          simp at hcontra

theorem matchBaby_some_props (cs : List Char) (st yr : String)
    (h : matchBaby cs = some (st, yr)) :
    st.data.length = 2 ∧ st.data.all Char.isUpper = true ∧
      yr.data.length = 4 ∧ yr.data.all Char.isDigit = true := by
  induction cs with
  | nil => exact Option.noConfusion h
  | cons x rest ih =>
    rw [matchBaby] at h
    cases hm : matchBaby rest with
    | some r =>
      rw [hm] at h
      injection h with h2
      exact ih (by rw [hm, h2])
    | none =>
      rw [hm] at h
      exact tryBaby_some_props _ st yr h

/-- C10: `extract_variables_from_filename` returns a dictionary whose
`state` entry is two uppercase letters and whose `year` entry is four
digits (as a string) iff its argument matches
`.*([A-Z]{2})_baby_names_(\d{4}).*`, and returns `None` otherwise;
consequently, for a globbed file whose path does not match, the
loading loop fails with a type error when subscripting `None` rather
than skipping the file or introducing missing values. -/
theorem extract_variables_iff_pattern_matches :
    (∀ s : String,
        (extract_variables_from_filename s).isSome = true ↔ MatchesBaby s.data) ∧
      (∀ s st yr : String, matchBaby s.data = some (st, yr) →
        extract_variables_from_filename s = some [("state", st), ("year", yr)] ∧
          st.data.length = 2 ∧ st.data.all Char.isUpper = true ∧
          yr.data.length = 4 ∧ yr.data.all Char.isDigit = true) ∧
      ∀ s : String, ¬ MatchesBaby s.data →
        loadFileYear s = Except.error "TypeError" := by
  refine ⟨fun s => ?_, fun s st yr h => ?_, fun s h => ?_⟩
  · constructor
    · intro hs
      apply (matchBaby_isSome_iff s.data).mp
      cases hm : matchBaby s.data with
      | none =>
        rw [extract_variables_from_filename, hm] at hs
        exact absurd hs (by simp)
      | some r => rfl
    · intro hmatch
      have hsome := (matchBaby_isSome_iff s.data).mpr hmatch
      rw [extract_variables_from_filename]
      cases hm : matchBaby s.data with
      | none =>
        rw [hm] at hsome
        exact absurd hsome (by simp)
      | some r => rfl
  · constructor
    · rw [extract_variables_from_filename, h]
      rfl
    · exact matchBaby_some_props s.data st yr h
  · have hm : matchBaby s.data = none := by
      cases hmm : matchBaby s.data with
      | none => rfl
      | some r =>
        exact absurd ((matchBaby_isSome_iff s.data).mp (by rw [hmm]; rfl)) h
    rw [loadFileYear, extract_variables_from_filename, hm]
    rfl

theorem extract_variables_iff_pattern_matches_witness :
    (extract_variables_from_filename "./data/NC_baby_names_2016.csv" =
        some [("state", "NC"), ("year", "2016")] ∧
      ("NC" : String).data.length = 2 ∧
      ("NC" : String).data.all Char.isUpper = true ∧
      ("2016" : String).data.length = 4 ∧
      ("2016" : String).data.all Char.isDigit = true) ∧
      loadFileYear "./data/other_baby_names_16.csv" = Except.error "TypeError" :=
  ⟨extract_variables_iff_pattern_matches.2.1 "./data/NC_baby_names_2016.csv"
      "NC" "2016" (by decide),
    extract_variables_iff_pattern_matches.2.2 "./data/other_baby_names_16.csv"
      (fun hm =>
        absurd ((matchBaby_isSome_iff ("./data/other_baby_names_16.csv".data)).mpr hm)
          (by decide))⟩
